import Mathlib

/-!
Shallow embedding of the format-selection and session-state engine of
`src/main.py` (a Telegram media-downloader bot), together with proofs of the
specification claims about it.

Conventions of the embedding:
* a Python metadata dict for one encoding is the structure `Fmt`; a key that
  may be missing from the dict is an `Option` field (absent = `none`);
* a Python `dict` used as a mutable map is an association list with distinct
  keys, manipulated through `dictGet` / `dictPut` / `dictPop`, which mirror
  `d.get(k)`, `d[k] = v` and `d.pop(k, None)` respectively;
* the process-wide `MAX_BYTES` configuration value is passed explicitly as
  the `ceiling` argument;
* byte sizes and pixel heights are natural numbers.
-/

namespace TgBot

/-! ## Python dict as an association list -/

/-- `d.get(k)`: first binding of key `k`, if any. -/
def dictGet {K V : Type} [DecidableEq K] : List (K × V) → K → Option V
  | [], _ => none
  | (k', v) :: rest, k => if k = k' then some v else dictGet rest k

/-- `d[k] = v`: replace the binding of `k` in place, or append a new one. -/
def dictPut {K V : Type} [DecidableEq K] : List (K × V) → K → V → List (K × V)
  | [], k, v => [(k, v)]
  | (k', v') :: rest, k, v =>
    if k = k' then (k, v) :: rest else (k', v') :: dictPut rest k v

/-- `d.pop(k, None)` (result discarded): remove the binding of `k`, if any. -/
def dictPop {K V : Type} [DecidableEq K] : List (K × V) → K → List (K × V)
  | [], _ => []
  | (k', v') :: rest, k =>
    if k = k' then rest else (k', v') :: dictPop rest k

/-! ## Data model: one encoding-candidate metadata record -/

/-- One entry of `info["formats"]`: the fields of the yt-dlp format dict that
`main.py` reads. An `Option` field is `none` when the key is absent from the
dict (or explicitly `None` in Python). -/
structure Fmt where
  ext : Option String
  vcodec : Option String
  acodec : Option String
  filesize : Option Nat
  filesize_approx : Option Nat
  height : Option Nat
  format_id : Option String
deriving DecidableEq

/-- `_format_filesize` (main.py lines 92 to 96): `filesize`, falling back to
`filesize_approx` when `filesize` is `None`. -/
def format_filesize (f : Fmt) : Option Nat :=
  match f.filesize with
  | some v => some v
  | none => f.filesize_approx

/-- `f.get("height") or 0` (lines 117 and 159): the resolution class, 0 when
the height is absent. -/
def heightVal (f : Fmt) : Nat := f.height.getD 0

/-- The sentinel `10**18` used by both ranking modes for an unknown size. -/
def BIG : Nat := 10 ^ 18

/-- The track filter of lines 110 and 152: a candidate is discarded exactly
when its `vcodec` or `acodec` field holds the explicit marker string
`"none"`; an absent field passes. -/
def trackOK (f : Fmt) : Bool :=
  !(f.vcodec == some "none") && !(f.acodec == some "none")

/-- The size filter of lines 113 to 115 and 155 to 157: a candidate is
discarded exactly when its size is known and exceeds `MAX_BYTES`. -/
def sizeOK (ceiling : Nat) (f : Fmt) : Bool :=
  match format_filesize f with
  | none => true
  | some fs => decide (fs ≤ ceiling)

/-- The common candidate filter applied by both `build_youtube_choice_list`
(lines 108 to 115) and `choose_best_under_limit_non_reencode`
(lines 150 to 157): mp4 container, both tracks present, size within limit. -/
def passesFilter (ceiling : Nat) (f : Fmt) : Bool :=
  f.ext == some "mp4" && trackOK f && sizeOK ceiling f

/-- `fs or 10**18` (lines 118, 131, 132) applied to an optional size: by
Python truthiness a size of `0` falls to the sentinel exactly like `None`. -/
def fsOrBig : Option Nat → Nat
  | none => BIG
  | some v => if v = 0 then BIG else v

/-- `fs if fs is not None else 10**18` (line 160): unlike `fsOrBig`, a known
size of `0` stays `0` here. -/
def fsScore : Option Nat → Nat
  | none => BIG
  | some v => v

/-! ## Manual mode: `build_youtube_choice_list` (lines 98 to 136) -/

/-- The candidate-collection loop of lines 106 to 118: filter, then tuple up
`(height, fs or 10**18, f)`. -/
def mkCandidates (ceiling : Nat) (formats : List Fmt) : List (Nat × Nat × Fmt) :=
  formats.filterMap fun f =>
    if passesFilter ceiling f then
      some (heightVal f, fsOrBig (format_filesize f), f)
    else none

/-- Strict lexicographic order on the sort key `(x[0], x[1])` of line 120. -/
def candLt (a b : Nat × Nat × Fmt) : Bool :=
  decide (a.1 < b.1) || (decide (a.1 = b.1) && decide (a.2.1 < b.2.1))

/-- One step of a stable insertion sort implementing the (stable) ascending
`candidates.sort(key=lambda x: (x[0], x[1]))` of line 120: the inserted
element came earlier in the original list, so it goes before elements with an
equal key. -/
def insertCand (x : Nat × Nat × Fmt) : List (Nat × Nat × Fmt) → List (Nat × Nat × Fmt)
  | [] => [x]
  | y :: ys => if candLt y x then y :: insertCand x ys else x :: y :: ys

/-- `candidates.sort(key=lambda x: (x[0], x[1]))` of line 120. -/
def sortCands : List (Nat × Nat × Fmt) → List (Nat × Nat × Fmt)
  | [] => []
  | c :: cs => insertCand c (sortCands cs)

/-- The body of the grouping loop of lines 123 to 134 for one candidate at
height `h`: store `f` under `h` if the key is new, otherwise keep whichever
of the stored format and `f` has the smaller `_format_filesize(.) or 10**18`
(replacement only on strictly smaller, line 133). -/
def updateByHeight : List (Nat × Fmt) → Nat → Fmt → List (Nat × Fmt)
  | [], h, f => [(h, f)]
  | (h', f') :: rest, h, f =>
    if h = h' then
      if fsOrBig (format_filesize f) < fsOrBig (format_filesize f') then
        (h', f) :: rest
      else
        (h', f') :: rest
    else (h', f') :: updateByHeight rest h f

/-- One iteration of the `for height, fs, f in candidates` loop of lines
124 to 134, including the `if height <= 0: continue` guard of line 125. -/
def bstep (m : List (Nat × Fmt)) (c : Nat × Nat × Fmt) : List (Nat × Fmt) :=
  if c.1 = 0 then m else updateByHeight m c.1 c.2.2

/-- The whole grouping loop of lines 123 to 134, starting from the empty
dict `by_height = {}`. -/
def buildByHeight (cands : List (Nat × Nat × Fmt)) : List (Nat × Fmt) :=
  cands.foldl bstep []

/-- Insertion step for `sorted(by_height.keys())` on the association list
(keys are pairwise distinct, so tie handling is irrelevant). -/
def insertAssoc (x : Nat × Fmt) : List (Nat × Fmt) → List (Nat × Fmt)
  | [] => [x]
  | y :: ys => if y.1 < x.1 then y :: insertAssoc x ys else x :: y :: ys

/-- Sort the height-keyed association list by ascending key, implementing
`[by_height[h] for h in sorted(by_height.keys())]` of line 136 together with
`List.map Prod.snd`. -/
def sortAssoc : List (Nat × Fmt) → List (Nat × Fmt)
  | [] => []
  | x :: xs => insertAssoc x (sortAssoc xs)

/-- `build_youtube_choice_list` (lines 98 to 136), with the format list of
`info` and `MAX_BYTES` passed explicitly. -/
def build_youtube_choice_list (ceiling : Nat) (formats : List Fmt) : List Fmt :=
  (sortAssoc (buildByHeight (sortCands (mkCandidates ceiling formats)))).map Prod.snd

/-! ## Automatic mode: `choose_best_under_limit_non_reencode` (lines 138 to 165) -/

/-- `score = (height, -fs_score)` of line 161. -/
def scoreOf (f : Fmt) : Int × Int :=
  ((heightVal f : Int), -(fsScore (format_filesize f) : Int))

/-- Python tuple comparison `score > best_score` of line 162: strict
lexicographic order on integer pairs. -/
def pairGt (a b : Int × Int) : Bool :=
  decide (b.1 < a.1) || (decide (a.1 = b.1) && decide (b.2 < a.2))

/-- One iteration of the selection loop of lines 149 to 164, carrying
`(best, best_score)`. -/
def chooseStep (ceiling : Nat) (acc : Option Fmt × (Int × Int)) (f : Fmt) :
    Option Fmt × (Int × Int) :=
  if passesFilter ceiling f then
    if pairGt (scoreOf f) acc.2 then (some f, scoreOf f) else acc
  else acc

/-- `choose_best_under_limit_non_reencode` (lines 138 to 165): fold of the
selection loop from `best = None`, `best_score = (-1, -1)`. -/
def choose_best_under_limit_non_reencode (ceiling : Nat) (formats : List Fmt) :
    Option Fmt :=
  (formats.foldl (chooseStep ceiling) (none, (-1, -1))).1

/-- The size-preference order stated by the specification: among candidates
of equal resolution, smaller known size is preferred and an unknown size
counts as plus infinity, so it is never preferred over any known size. -/
def sizeLE (f g : Fmt) : Bool :=
  match format_filesize f, format_filesize g with
  | some a, some b => decide (a ≤ b)
  | some _, none => true
  | none, none => true
  | none, some _ => false

/-! ## Session store and callback handler (lines 54 to 60 and 301 to 330) -/

/-- `PendingChoice` (lines 54 to 58). The `formats` token map
(`Dict[str, dict]`) is an association list with distinct keys. -/
structure PendingChoice where
  url : String
  extractor : String
  formats : List (String × Fmt)
deriving DecidableEq

/-- The `(chat_id, user_id)` key of the `PENDING` dict (line 60). -/
abbrev Key := Int × Int

/-- The `PENDING` dict (line 60). -/
abbrev Store := List (Key × PendingChoice)

/-- The read-and-remove used by the selection path of `on_callback`:
`PENDING.get(key)` at line 313 followed by `PENDING.pop(key, None)` at
line 324 (removing nothing when the key is absent, which matches the code
returning early before the pop in that case). This is the `take` operation
of the session-store contract. -/
def take (m : Store) (k : Key) : Option PendingChoice × Store :=
  (dictGet m k, dictPop m k)

/-- The five distinct `edit_message_text` replies of `on_callback`:
`cancelled` is the literal at line 308, `sessionNotFound` at line 315,
`formatNotFound` at line 319, `downloading` at line 326 and
`unknownAction` at line 330. -/
inductive CbReply where
  | cancelled
  | sessionNotFound
  | formatNotFound
  | downloading
  | unknownAction
deriving DecidableEq

/-- `on_callback` (lines 301 to 330) as a pure transition on the `PENDING`
store: dispatch on the raw callback-data string. `data == "CANCEL"` pops the
key unconditionally and acknowledges; `data.startswith("YT|")` takes the
token from `data.split("|", 1)[1]`, which under that guard is exactly the
text after the first three characters, then looks the session and the token
up; anything else is the unknown-action reply. The successful selection path
removes the entry and proceeds to the delivery pipeline (modelled
separately by `send_downloaded_video`). -/
def on_callback (store : Store) (chat user : Int) (data : String) :
    Store × CbReply :=
  if data = "CANCEL" then
    (dictPop store (chat, user), CbReply.cancelled)
  else
    match data.data with
    | 'Y' :: 'T' :: '|' :: tokenChars =>
      let token : String := ⟨tokenChars⟩
      match dictGet store (chat, user) with
      | none => (store, CbReply.sessionNotFound)
      | some pending =>
        match dictGet pending.formats token with
        | none => (store, CbReply.formatNotFound)
        | some _ => (dictPop store (chat, user), CbReply.downloading)
    | _ => (store, CbReply.unknownAction)

/-! ## Delivery pipeline: `send_downloaded_video` (lines 332 to 358) -/

/-- The payloads of the two `send_message` calls of the pipeline: the
too-large notice of lines 341 to 344 and the generic error notice of
line 358. -/
inductive MsgKind where
  | tooLarge (size : Nat)
  | errorText (e : String)
deriving DecidableEq

/-- The outbound transport calls the pipeline can make: the upload-video
presence indicator of line 334, a text message, and the `send_video` upload
of lines 349 to 354. -/
inductive BotAction where
  | uploadAction
  | message (k : MsgKind)
  | video (size : Nat)
deriving DecidableEq

/-- `send_downloaded_video` (lines 332 to 358) as the list of transport
calls it performs, with the blocking download step abstracted as its result:
`Except.error e` when `download_format` raises with message `e` (caught at
line 356), `Except.ok size` when it produces a file whose on-disk size is
`size` (line 338). The actual size is compared against `MAX_BYTES` at
line 340; only when it fits is `send_video` reached. -/
def send_downloaded_video (ceiling : Nat) (download : Except String Nat) :
    List BotAction :=
  BotAction.uploadAction ::
    match download with
    | Except.error e => [BotAction.message (MsgKind.errorText e)]
    | Except.ok size =>
      if size > ceiling then [BotAction.message (MsgKind.tooLarge size)]
      else [BotAction.video size]

/-! ## Concrete data used by witnesses and counterexamples -/

/-- Default ceiling: `50 * 1024 * 1024` bytes (lines 40 to 41). -/
def defaultCeiling : Nat := 50 * 1024 * 1024

/-- Scenario A/B candidate: 144p, 5 MB, mp4, both tracks. -/
def demo144 : Fmt :=
  ⟨some "mp4", some "avc1", some "mp4a", some 5242880, none, some 144, some "f144"⟩

/-- Scenario A/B candidate: 720p, 45 MB, mp4, both tracks. -/
def demo720 : Fmt :=
  ⟨some "mp4", some "avc1", some "mp4a", some 47185920, none, some 720, some "f720"⟩

/-- Scenario A/B candidate: 1080p, 80 MB, mp4, both tracks. -/
def demo1080 : Fmt :=
  ⟨some "mp4", some "avc1", some "mp4a", some 83886080, none, some 1080, some "f1080"⟩

/-- The Scenario A/B candidate set. -/
def demoFormats : List Fmt := [demo144, demo720, demo1080]

/-- A 480p candidate whose recorded size is 0 bytes. -/
def cexZero : Fmt :=
  ⟨some "mp4", some "avc1", some "mp4a", some 0, none, some 480, some "fz"⟩

/-- A 480p candidate of 18 MB. -/
def cex18 : Fmt :=
  ⟨some "mp4", some "avc1", some "mp4a", some 18874368, none, some 480, some "f18"⟩

/-- Scenario C candidate: 480p, 20 MB. -/
def scen480a : Fmt :=
  ⟨some "mp4", some "avc1", some "mp4a", some 20971520, none, some 480, some "fa"⟩

/-- Scenario C candidate: 480p, 18 MB. -/
def scen480b : Fmt :=
  ⟨some "mp4", some "avc1", some "mp4a", some 18874368, none, some 480, some "fb"⟩

/-- A candidate whose codec fields are absent from the metadata record. -/
def absentCodecs : Fmt :=
  ⟨some "mp4", none, none, some 1048576, none, some 360, some "fx"⟩

/-- A demonstration pending selection holding one token. -/
def demoPending : PendingChoice :=
  ⟨"https://youtu.be/x", "youtube", [("f0", demo144)]⟩

/-- A second demonstration pending selection. -/
def demoPending2 : PendingChoice :=
  ⟨"https://youtu.be/y", "youtube", [("f0", demo720)]⟩

/-! ## Lemmas on the dict operations -/

theorem dictGet_eq_none_iff {K V : Type} [DecidableEq K]
    (m : List (K × V)) (k : K) :
    dictGet m k = none ↔ k ∉ m.map Prod.fst := by
  induction m with
  | nil => simp [dictGet]
  | cons p rest ih =>
    obtain ⟨k', v⟩ := p
    by_cases hk : k = k' <;> simp [dictGet, hk, ih]

theorem mem_of_dictGet {K V : Type} [DecidableEq K]
    {m : List (K × V)} {k : K} {v : V} (h : dictGet m k = some v) :
    (k, v) ∈ m := by
  induction m with
  | nil => simp [dictGet] at h
  | cons p rest ih =>
    obtain ⟨k', v'⟩ := p
    by_cases hk : k = k'
    · simp only [dictGet, if_pos hk] at h
      obtain rfl := hk
      obtain rfl : v' = v := Option.some.inj h
      exact List.mem_cons_self _ _
    · simp only [dictGet, if_neg hk] at h
      exact List.mem_cons_of_mem _ (ih h)

theorem eq_of_nodup_keys {K V : Type} {m : List (K × V)}
    (hnd : (m.map Prod.fst).Nodup) {p q : K × V}
    (hp : p ∈ m) (hq : q ∈ m) (h : p.1 = q.1) : p = q := by
  induction m with
  | nil => simp at hp
  | cons x rest ih =>
    simp only [List.map_cons, List.nodup_cons] at hnd
    rcases List.mem_cons.1 hp with hp' | hp' <;> rcases List.mem_cons.1 hq with hq' | hq'
    · rw [hp', hq']
    · exfalso
      apply hnd.1
      rw [← hp', h]
      exact List.mem_map.2 ⟨q, hq', rfl⟩
    · exfalso
      apply hnd.1
      rw [← hq', ← h]
      exact List.mem_map.2 ⟨p, hp', rfl⟩
    · exact ih hnd.2 hp' hq'

theorem dictGet_of_mem {K V : Type} [DecidableEq K]
    {m : List (K × V)} {k : K} {v : V}
    (hnd : (m.map Prod.fst).Nodup) (h : (k, v) ∈ m) :
    dictGet m k = some v := by
  induction m with
  | nil => simp at h
  | cons p rest ih =>
    obtain ⟨k', v'⟩ := p
    simp only [List.map_cons, List.nodup_cons] at hnd
    rcases List.mem_cons.1 h with hh | hh
    · rw [Prod.mk.injEq] at hh
      simp [dictGet, hh.1, hh.2]
    · have hk : k ≠ k' := fun he =>
        hnd.1 (List.mem_map.2 ⟨(k, v), hh, he ▸ rfl⟩)
      simp [dictGet, hk, ih hnd.2 hh]

theorem dictPop_of_get_none {K V : Type} [DecidableEq K]
    {m : List (K × V)} {k : K} (h : dictGet m k = none) :
    dictPop m k = m := by
  induction m with
  | nil => rfl
  | cons p rest ih =>
    obtain ⟨k', v'⟩ := p
    by_cases hk : k = k'
    · simp [dictGet, hk] at h
    · simp [dictGet, hk] at h
      simp [dictPop, hk, ih h]

theorem dictPop_keys_subset {K V : Type} [DecidableEq K]
    (m : List (K × V)) (k k' : K)
    (h : k' ∈ (dictPop m k).map Prod.fst) : k' ∈ m.map Prod.fst := by
  induction m with
  | nil => simp [dictPop] at h
  | cons p rest ih =>
    obtain ⟨k₀, v₀⟩ := p
    by_cases hk : k = k₀
    · simp only [dictPop, if_pos hk] at h
      simp [h]
    · simp only [dictPop, if_neg hk, List.map_cons, List.mem_cons] at h ⊢
      rcases h with h | h
      · exact Or.inl h
      · exact Or.inr (ih h)

theorem dictPop_nodup {K V : Type} [DecidableEq K]
    {m : List (K × V)} (k : K) (hnd : (m.map Prod.fst).Nodup) :
    ((dictPop m k).map Prod.fst).Nodup := by
  induction m with
  | nil => simp [dictPop]
  | cons p rest ih =>
    obtain ⟨k₀, v₀⟩ := p
    simp only [List.map_cons, List.nodup_cons] at hnd
    by_cases hk : k = k₀
    · simpa [dictPop, hk] using hnd.2
    · simp only [dictPop, if_neg hk, List.map_cons, List.nodup_cons]
      exact ⟨fun hmem => hnd.1 (dictPop_keys_subset rest k k₀ hmem), ih hnd.2⟩

theorem dictGet_pop_self {K V : Type} [DecidableEq K]
    {m : List (K × V)} (k : K) (hnd : (m.map Prod.fst).Nodup) :
    dictGet (dictPop m k) k = none := by
  induction m with
  | nil => rfl
  | cons p rest ih =>
    obtain ⟨k₀, v₀⟩ := p
    simp only [List.map_cons, List.nodup_cons] at hnd
    by_cases hk : k = k₀
    · rw [dictPop, if_pos hk]
      exact (dictGet_eq_none_iff rest k).2 (hk ▸ hnd.1)
    · rw [dictPop, if_neg hk, dictGet, if_neg hk]
      exact ih hnd.2

theorem dictGet_put_self {K V : Type} [DecidableEq K]
    (m : List (K × V)) (k : K) (v : V) :
    dictGet (dictPut m k v) k = some v := by
  induction m with
  | nil => simp [dictPut, dictGet]
  | cons p rest ih =>
    obtain ⟨k₀, v₀⟩ := p
    by_cases hk : k = k₀
    · simp [dictPut, hk, dictGet]
    · simp [dictPut, hk, dictGet, ih]

theorem dictGet_put_other {K V : Type} [DecidableEq K]
    (m : List (K × V)) (k k' : K) (v : V) (h : k' ≠ k) :
    dictGet (dictPut m k v) k' = dictGet m k' := by
  induction m with
  | nil => simp [dictPut, dictGet, h]
  | cons p rest ih =>
    obtain ⟨k₀, v₀⟩ := p
    by_cases hk : k = k₀
    · subst hk
      simp [dictPut, dictGet, h]
    · by_cases hk' : k' = k₀ <;> simp [dictPut, hk, dictGet, hk', ih]

theorem dictPut_keys {K V : Type} [DecidableEq K]
    (m : List (K × V)) (k : K) (v : V) :
    (dictPut m k v).map Prod.fst =
      if k ∈ m.map Prod.fst then m.map Prod.fst else m.map Prod.fst ++ [k] := by
  induction m with
  | nil => simp [dictPut]
  | cons p rest ih =>
    obtain ⟨k₀, v₀⟩ := p
    by_cases hk : k = k₀
    · simp [dictPut, hk]
    · have : (k ∈ k₀ :: rest.map Prod.fst) = (k ∈ rest.map Prod.fst) := by
        simp [List.mem_cons, hk]
      by_cases hmem : k ∈ rest.map Prod.fst <;>
        simp [dictPut, hk, ih, hmem, List.mem_cons]

theorem dictPut_nodup {K V : Type} [DecidableEq K]
    {m : List (K × V)} (k : K) (v : V) (hnd : (m.map Prod.fst).Nodup) :
    ((dictPut m k v).map Prod.fst).Nodup := by
  rw [dictPut_keys]
  by_cases hmem : k ∈ m.map Prod.fst
  · simpa [hmem] using hnd
  · simpa [hmem] using List.Nodup.append hnd (List.nodup_singleton k)
      (by simpa [List.disjoint_singleton] using hmem)

/-! ## Lemmas on the automatic-mode selection loop -/

/-- The reflexive closure of the strict tuple order tested by `pairGt`. -/
def leLexP (a b : Int × Int) : Prop := a.1 < b.1 ∨ (a.1 = b.1 ∧ a.2 ≤ b.2)

theorem pairGt_eq_true_iff (a b : Int × Int) :
    pairGt a b = true ↔ (b.1 < a.1 ∨ (a.1 = b.1 ∧ b.2 < a.2)) := by
  unfold pairGt
  simp only [Bool.or_eq_true, Bool.and_eq_true, decide_eq_true_eq]

theorem pairGt_eq_false_iff (a b : Int × Int) :
    pairGt a b = false ↔ leLexP a b := by
  rw [← Bool.not_eq_true, pairGt_eq_true_iff]
  unfold leLexP
  omega

theorem leLexP_refl (a : Int × Int) : leLexP a a := Or.inr ⟨rfl, le_refl _⟩

theorem leLexP_trans {a b c : Int × Int} (h1 : leLexP a b) (h2 : leLexP b c) :
    leLexP a c := by
  unfold leLexP at h1 h2 ⊢
  omega

theorem chooseStep_le (ceiling : Nat) (acc : Option Fmt × (Int × Int)) (c : Fmt) :
    leLexP acc.2 (chooseStep ceiling acc c).2 := by
  unfold chooseStep
  by_cases hp : passesFilter ceiling c
  · rw [if_pos hp]
    by_cases hg : pairGt (scoreOf c) acc.2
    · rw [if_pos hg]
      have hlt := (pairGt_eq_true_iff _ _).1 hg
      show leLexP acc.2 (scoreOf c)
      unfold leLexP
      omega
    · rw [if_neg hg]
      exact leLexP_refl _
  · rw [if_neg hp]
    exact leLexP_refl _

theorem chooseStep_dominates (ceiling : Nat) (acc : Option Fmt × (Int × Int))
    (c : Fmt) (hp : passesFilter ceiling c = true) :
    leLexP (scoreOf c) (chooseStep ceiling acc c).2 := by
  unfold chooseStep
  rw [if_pos hp]
  by_cases hg : pairGt (scoreOf c) acc.2
  · rw [if_pos hg]
    exact leLexP_refl _
  · rw [if_neg hg]
    exact (pairGt_eq_false_iff _ _).1 (Bool.of_not_eq_true hg)

theorem chooseStep_cases (ceiling : Nat) (acc : Option Fmt × (Int × Int)) (c : Fmt) :
    chooseStep ceiling acc c = acc ∨
      (passesFilter ceiling c = true ∧
        chooseStep ceiling acc c = (some c, scoreOf c)) := by
  unfold chooseStep
  by_cases hp : passesFilter ceiling c
  · rw [if_pos hp]
    by_cases hg : pairGt (scoreOf c) acc.2
    · rw [if_pos hg]
      exact Or.inr ⟨hp, rfl⟩
    · rw [if_neg hg]
      exact Or.inl rfl
  · rw [if_neg hp]
    exact Or.inl rfl

theorem choose_fold (ceiling : Nat) (cs : List Fmt) :
    ∀ acc : Option Fmt × (Int × Int),
      leLexP acc.2 (cs.foldl (chooseStep ceiling) acc).2 ∧
      (∀ g ∈ cs, passesFilter ceiling g = true →
        leLexP (scoreOf g) (cs.foldl (chooseStep ceiling) acc).2) ∧
      (cs.foldl (chooseStep ceiling) acc = acc ∨
        ∃ f ∈ cs, passesFilter ceiling f = true ∧
          cs.foldl (chooseStep ceiling) acc = (some f, scoreOf f)) := by
  induction cs with
  | nil =>
    intro acc
    exact ⟨leLexP_refl _, by simp, Or.inl rfl⟩
  | cons c cs ih =>
    intro acc
    obtain ⟨ih1, ih2, ih3⟩ := ih (chooseStep ceiling acc c)
    have hfold : (c :: cs).foldl (chooseStep ceiling) acc =
        cs.foldl (chooseStep ceiling) (chooseStep ceiling acc c) := rfl
    rw [hfold]
    refine ⟨leLexP_trans (chooseStep_le ceiling acc c) ih1, ?_, ?_⟩
    · intro g hg hpg
      rcases List.mem_cons.1 hg with hg' | hg'
      · subst hg'
        exact leLexP_trans (chooseStep_dominates ceiling acc g hpg) ih1
      · exact ih2 g hg' hpg
    · rcases ih3 with ih3 | ⟨f, hf, hpf, he⟩
      · rw [ih3]
        rcases chooseStep_cases ceiling acc c with he | ⟨hpc, he⟩
        · exact Or.inl he
        · exact Or.inr ⟨c, List.mem_cons_self _ _, hpc, he⟩
      · exact Or.inr ⟨f, List.mem_cons_of_mem _ hf, hpf, he⟩

/-- Unpacking of the common filter into its three conditions. -/
theorem passesFilter_eq_true_iff (ceiling : Nat) (f : Fmt) :
    passesFilter ceiling f = true ↔
      (f.ext = some "mp4" ∧ f.vcodec ≠ some "none" ∧ f.acodec ≠ some "none" ∧
        ∀ s, format_filesize f = some s → s ≤ ceiling) := by
  unfold passesFilter trackOK sizeOK
  cases hfs : format_filesize f with
  | none =>
    simp only [Bool.and_eq_true, beq_iff_eq, Bool.not_eq_true', beq_eq_false_iff_ne]
    simp [and_assoc]
  | some s =>
    simp only [Bool.and_eq_true, beq_iff_eq, Bool.not_eq_true', beq_eq_false_iff_ne,
      decide_eq_true_eq]
    simp only [and_assoc, and_congr_right_iff]
    intro _ _ _
    constructor
    · intro h s' hs'
      obtain rfl : s = s' := Option.some.inj hs'
      exact h
    · intro h
      exact h s rfl

/-- Conversion from the loop order on scores to the size-preference order of
the specification; needs every surviving known size to be below the unknown
sentinel, which `ceiling < BIG` guarantees. -/
theorem leLexP_scoreOf_elim (ceiling : Nat) (hceil : ceiling < BIG) (f g : Fmt)
    (hg : passesFilter ceiling g = true)
    (h : leLexP (scoreOf g) (scoreOf f)) :
    heightVal g < heightVal f ∨
      (heightVal g = heightVal f ∧ sizeLE f g = true) := by
  unfold leLexP scoreOf at h
  simp only [Nat.cast_lt, Nat.cast_inj, neg_le_neg_iff, Nat.cast_le] at h
  rcases h with h | ⟨h1, h2⟩
  · exact Or.inl h
  · refine Or.inr ⟨h1, ?_⟩
    unfold sizeLE
    cases hff : format_filesize f with
    | some a =>
      cases hfg : format_filesize g with
      | some b =>
        rw [hff, hfg] at h2
        simp only [fsScore] at h2
        exact decide_eq_true h2
      | none => rfl
    | none =>
      cases hfg : format_filesize g with
      | some b =>
        rw [hff, hfg] at h2
        simp only [fsScore] at h2
        have hb : b ≤ ceiling :=
          ((passesFilter_eq_true_iff ceiling g).1 hg).2.2.2 b hfg
        omega
      | none => rfl

/-! ## Lemmas on the manual-mode pipeline -/

theorem mem_mkCandidates {ceiling : Nat} {formats : List Fmt}
    {c : Nat × Nat × Fmt} (h : c ∈ mkCandidates ceiling formats) :
    c.2.2 ∈ formats ∧ passesFilter ceiling c.2.2 = true ∧
      c.1 = heightVal c.2.2 ∧ c.2.1 = fsOrBig (format_filesize c.2.2) := by
  unfold mkCandidates at h
  rcases List.mem_filterMap.1 h with ⟨f, hf, he⟩
  by_cases hp : passesFilter ceiling f
  · rw [if_pos hp] at he
    obtain rfl := Option.some.inj he
    exact ⟨hf, hp, rfl, rfl⟩
  · rw [if_neg hp] at he
    cases he

theorem mkCandidates_mem {ceiling : Nat} {formats : List Fmt} {g : Fmt}
    (hg : g ∈ formats) (hp : passesFilter ceiling g = true) :
    (heightVal g, fsOrBig (format_filesize g), g) ∈ mkCandidates ceiling formats :=
  List.mem_filterMap.2 ⟨g, hg, by rw [if_pos hp]⟩

theorem mem_insertCand {x y : Nat × Nat × Fmt} {l : List (Nat × Nat × Fmt)} :
    y ∈ insertCand x l ↔ y = x ∨ y ∈ l := by
  induction l with
  | nil => simp [insertCand]
  | cons z zs ih =>
    unfold insertCand
    by_cases h : candLt z x
    · rw [if_pos h]
      simp only [List.mem_cons, ih]
      tauto
    · rw [if_neg h]
      simp only [List.mem_cons]

theorem mem_sortCands {y : Nat × Nat × Fmt} {l : List (Nat × Nat × Fmt)} :
    y ∈ sortCands l ↔ y ∈ l := by
  induction l with
  | nil => simp [sortCands]
  | cons c cs ih =>
    unfold sortCands
    rw [mem_insertCand, ih, List.mem_cons]

theorem mem_updateByHeight {m : List (Nat × Fmt)} {h : Nat} {f : Fmt}
    {p : Nat × Fmt} (hp : p ∈ updateByHeight m h f) :
    p ∈ m ∨ (p.1 = h ∧ p.2 = f) := by
  induction m with
  | nil =>
    rcases List.mem_singleton.1 hp with rfl
    exact Or.inr ⟨rfl, rfl⟩
  | cons q rest ih =>
    obtain ⟨h', f'⟩ := q
    by_cases hh : h = h'
    · by_cases hcmp : fsOrBig (format_filesize f) < fsOrBig (format_filesize f')
      · rw [show updateByHeight ((h', f') :: rest) h f = (h', f) :: rest by
          unfold updateByHeight; rw [if_pos hh, if_pos hcmp]] at hp
        rcases List.mem_cons.1 hp with rfl | hp'
        · exact Or.inr ⟨hh.symm, rfl⟩
        · exact Or.inl (List.mem_cons_of_mem _ hp')
      · rw [show updateByHeight ((h', f') :: rest) h f = (h', f') :: rest by
          unfold updateByHeight; rw [if_pos hh, if_neg hcmp]] at hp
        exact Or.inl hp
    · rw [show updateByHeight ((h', f') :: rest) h f =
          (h', f') :: updateByHeight rest h f by
        simp only [updateByHeight]; rw [if_neg hh]] at hp
      rcases List.mem_cons.1 hp with rfl | hp'
      · exact Or.inl (List.mem_cons_self _ _)
      · rcases ih hp' with h' | h'
        · exact Or.inl (List.mem_cons_of_mem _ h')
        · exact Or.inr h'

theorem updateByHeight_keys (m : List (Nat × Fmt)) (h : Nat) (f : Fmt) :
    (updateByHeight m h f).map Prod.fst =
      if h ∈ m.map Prod.fst then m.map Prod.fst
      else m.map Prod.fst ++ [h] := by
  induction m with
  | nil => simp [updateByHeight]
  | cons q rest ih =>
    obtain ⟨h', f'⟩ := q
    by_cases hh : h = h'
    · subst hh
      by_cases hcmp : fsOrBig (format_filesize f) < fsOrBig (format_filesize f') <;>
        simp [updateByHeight, hcmp]
    · have hmm : (h ∈ (h' :: rest.map Prod.fst)) ↔ (h ∈ rest.map Prod.fst) := by
        simp [List.mem_cons, hh]
      by_cases hmem : h ∈ rest.map Prod.fst
      · simp [updateByHeight, hh, ih, hmem]
      · simp [updateByHeight, hh, ih, hmem]

theorem updateByHeight_nodup {m : List (Nat × Fmt)} {h : Nat} {f : Fmt}
    (hnd : (m.map Prod.fst).Nodup) :
    ((updateByHeight m h f).map Prod.fst).Nodup := by
  rw [updateByHeight_keys]
  by_cases hmem : h ∈ m.map Prod.fst
  · rwa [if_pos hmem]
  · rw [if_neg hmem]
    exact List.Nodup.append hnd (List.nodup_singleton h)
      (by simpa [List.disjoint_singleton] using hmem)

theorem dictGet_updateByHeight_self (m : List (Nat × Fmt)) (h : Nat) (f : Fmt) :
    dictGet (updateByHeight m h f) h =
      some (match dictGet m h with
            | none => f
            | some f' =>
              if fsOrBig (format_filesize f) < fsOrBig (format_filesize f') then f
              else f') := by
  induction m with
  | nil => simp [updateByHeight, dictGet]
  | cons q rest ih =>
    obtain ⟨h', f'⟩ := q
    by_cases hh : h = h'
    · subst hh
      by_cases hcmp : fsOrBig (format_filesize f) < fsOrBig (format_filesize f') <;>
        simp [updateByHeight, dictGet, hcmp]
    · simp [updateByHeight, dictGet, hh, ih]

theorem dictGet_updateByHeight_other (m : List (Nat × Fmt)) (h k : Nat) (f : Fmt)
    (hk : k ≠ h) : dictGet (updateByHeight m h f) k = dictGet m k := by
  induction m with
  | nil => simp [updateByHeight, dictGet, hk]
  | cons q rest ih =>
    obtain ⟨h', f'⟩ := q
    by_cases hh : h = h'
    · subst hh
      have hkh : ¬ k = h := hk
      by_cases hcmp : fsOrBig (format_filesize f) < fsOrBig (format_filesize f') <;>
        simp [updateByHeight, dictGet, hcmp, hkh]
    · by_cases hkh : k = h' <;> simp [updateByHeight, dictGet, hh, hkh, ih]

theorem updateByHeight_val_min (m : List (Nat × Fmt)) (h : Nat) (f : Fmt) :
    ∃ v, dictGet (updateByHeight m h f) h = some v ∧
      fsOrBig (format_filesize v) ≤ fsOrBig (format_filesize f) ∧
      ∀ w, dictGet m h = some w →
        fsOrBig (format_filesize v) ≤ fsOrBig (format_filesize w) := by
  cases hget : dictGet m h with
  | none =>
    refine ⟨f, ?_, le_refl _, ?_⟩
    · rw [dictGet_updateByHeight_self, hget]
    · intro w hw
      cases hw
  | some f' =>
    by_cases hcmp : fsOrBig (format_filesize f) < fsOrBig (format_filesize f')
    · refine ⟨f, ?_, le_refl _, ?_⟩
      · rw [dictGet_updateByHeight_self, hget]
        simp [hcmp]
      · intro w hw
        obtain rfl := Option.some.inj hw
        exact le_of_lt hcmp
    · refine ⟨f', ?_, le_of_not_lt hcmp, ?_⟩
      · rw [dictGet_updateByHeight_self, hget]
        simp [hcmp]
      · intro w hw
        obtain rfl := Option.some.inj hw
        exact le_refl _

theorem buildFold_spec (cs : List (Nat × Nat × Fmt)) :
    ∀ m : List (Nat × Fmt), (m.map Prod.fst).Nodup → (∀ p ∈ m, p.1 ≠ 0) →
      ((cs.foldl bstep m).map Prod.fst).Nodup ∧
      (∀ p ∈ cs.foldl bstep m,
        p ∈ m ∨ ∃ c ∈ cs, c.1 ≠ 0 ∧ p.1 = c.1 ∧ p.2 = c.2.2) ∧
      (∀ k ∈ m.map Prod.fst, k ∈ (cs.foldl bstep m).map Prod.fst) ∧
      (∀ c ∈ cs, c.1 ≠ 0 → c.1 ∈ (cs.foldl bstep m).map Prod.fst) ∧
      (∀ p ∈ cs.foldl bstep m, ∀ c ∈ cs, c.1 = p.1 →
        fsOrBig (format_filesize p.2) ≤ fsOrBig (format_filesize c.2.2)) ∧
      (∀ p ∈ cs.foldl bstep m, ∀ q ∈ m, q.1 = p.1 →
        fsOrBig (format_filesize p.2) ≤ fsOrBig (format_filesize q.2)) ∧
      (∀ p ∈ cs.foldl bstep m, p.1 ≠ 0) := by
  induction cs with
  | nil =>
    intro m hnd hnz
    simp only [List.foldl_nil]
    refine ⟨hnd, fun p hp => Or.inl hp, fun k hk => hk, by simp, by simp, ?_, hnz⟩
    intro p hp q hq hqp
    have he : q = p := eq_of_nodup_keys hnd hq hp hqp
    rw [he]
  | cons c cs ih =>
    intro m hnd hnz
    by_cases hc0 : c.1 = 0
    · have hb : bstep m c = m := by unfold bstep; rw [if_pos hc0]
      simp only [List.foldl_cons, hb]
      obtain ⟨i1, i2, i3, i4, i5, i6, i7⟩ := ih m hnd hnz
      refine ⟨i1, ?_, i3, ?_, ?_, i6, i7⟩
      · intro p hp
        rcases i2 p hp with h | ⟨c', hc', hne, he1, he2⟩
        · exact Or.inl h
        · exact Or.inr ⟨c', List.mem_cons_of_mem _ hc', hne, he1, he2⟩
      · intro c' hc' hne
        rcases List.mem_cons.1 hc' with rfl | hc''
        · exact absurd hc0 hne
        · exact i4 c' hc'' hne
      · intro p hp c' hc' hce
        rcases List.mem_cons.1 hc' with rfl | hc''
        · exact absurd (hce ▸ hc0) (i7 p hp)
        · exact i5 p hp c' hc'' hce
    · have hb : bstep m c = updateByHeight m c.1 c.2.2 := by
        unfold bstep; rw [if_neg hc0]
      have hnd' : ((updateByHeight m c.1 c.2.2).map Prod.fst).Nodup :=
        updateByHeight_nodup hnd
      have hnz' : ∀ p ∈ updateByHeight m c.1 c.2.2, p.1 ≠ 0 := by
        intro p hp
        rcases mem_updateByHeight hp with h | ⟨h1, _⟩
        · exact hnz p h
        · rw [h1]; exact hc0
      obtain ⟨i1, i2, i3, i4, i5, i6, i7⟩ := ih (updateByHeight m c.1 c.2.2) hnd' hnz'
      obtain ⟨v, hv, hvle, hvold⟩ := updateByHeight_val_min m c.1 c.2.2
      have hkeys : ∀ k ∈ m.map Prod.fst,
          k ∈ (updateByHeight m c.1 c.2.2).map Prod.fst := by
        intro k hk
        rw [updateByHeight_keys]
        by_cases hmem : c.1 ∈ m.map Prod.fst
        · rwa [if_pos hmem]
        · rw [if_neg hmem]; exact List.mem_append_left _ hk
      have hckey : c.1 ∈ (updateByHeight m c.1 c.2.2).map Prod.fst := by
        rw [updateByHeight_keys]
        by_cases hmem : c.1 ∈ m.map Prod.fst
        · rwa [if_pos hmem]
        · rw [if_neg hmem]
          exact List.mem_append_right _ (List.mem_singleton_self _)
      simp only [List.foldl_cons, hb]
      refine ⟨i1, ?_, ?_, ?_, ?_, ?_, i7⟩
      · intro p hp
        rcases i2 p hp with h | ⟨c', hc', hne, he1, he2⟩
        · rcases mem_updateByHeight h with h' | ⟨h1, h2⟩
          · exact Or.inl h'
          · exact Or.inr ⟨c, List.mem_cons_self _ _, hc0, h1, h2⟩
        · exact Or.inr ⟨c', List.mem_cons_of_mem _ hc', hne, he1, he2⟩
      · intro k hk
        exact i3 k (hkeys k hk)
      · intro c' hc' hne
        rcases List.mem_cons.1 hc' with rfl | hc''
        · exact i3 c'.1 hckey
        · exact i4 c' hc'' hne
      · intro p hp c' hc' hce
        rcases List.mem_cons.1 hc' with rfl | hc''
        · have hvmem : (c'.1, v) ∈ updateByHeight m c'.1 c'.2.2 := mem_of_dictGet hv
          exact le_trans (i6 p hp (c'.1, v) hvmem hce) hvle
        · exact i5 p hp c' hc'' hce
      · intro p hp q hq hqp
        by_cases hqc : q.1 = c.1
        · have hget : dictGet m c.1 = some q.2 := by
            rw [← hqc]; exact dictGet_of_mem hnd hq
          have hvq := hvold q.2 hget
          have hvmem : (c.1, v) ∈ updateByHeight m c.1 c.2.2 := mem_of_dictGet hv
          have h1 := i6 p hp (c.1, v) hvmem (by rw [← hqc]; exact hqp)
          exact le_trans h1 hvq
        · have hsame : dictGet (updateByHeight m c.1 c.2.2) q.1 = dictGet m q.1 :=
            dictGet_updateByHeight_other m c.1 q.1 c.2.2 hqc
          have hget : dictGet (updateByHeight m c.1 c.2.2) q.1 = some q.2 := by
            rw [hsame]; exact dictGet_of_mem hnd hq
          exact i6 p hp (q.1, q.2) (mem_of_dictGet hget) hqp

/-! ## Claim about automatic-mode selection (C1) -/

/-- C1: for any ceiling below the unknown-size sentinel `10**18` (the
default 50 MiB in particular), automatic-mode selection returns, among the
candidates surviving the container/track and size filters, one of greatest
resolution class; ties between equal resolution classes go to the smaller
known size, and an unknown size compares as plus infinity, losing every
size tie-break against a known size. When no candidate survives, the
selection returns none. -/
theorem auto_selection_best (ceiling : Nat) (hceil : ceiling < BIG)
    (formats : List Fmt) :
    (∀ f, choose_best_under_limit_non_reencode ceiling formats = some f →
      f ∈ formats ∧ passesFilter ceiling f = true ∧
      ∀ g ∈ formats, passesFilter ceiling g = true →
        heightVal g < heightVal f ∨
          (heightVal g = heightVal f ∧ sizeLE f g = true)) ∧
    (choose_best_under_limit_non_reencode ceiling formats = none →
      ∀ g ∈ formats, passesFilter ceiling g = false) := by
  obtain ⟨h1, h2, h3⟩ := choose_fold ceiling formats (none, (-1, -1))
  constructor
  · intro f hf
    rcases h3 with h3 | ⟨f', hf', hpf', he⟩
    · rw [show choose_best_under_limit_non_reencode ceiling formats =
          (formats.foldl (chooseStep ceiling) (none, (-1, -1))).1 from rfl,
        h3] at hf
      exact absurd hf (by simp)
    · have hff' : f' = f := by
        have : (formats.foldl (chooseStep ceiling) (none, (-1, -1))).1 = some f' := by
          rw [he]
        rw [show choose_best_under_limit_non_reencode ceiling formats =
            (formats.foldl (chooseStep ceiling) (none, (-1, -1))).1 from rfl,
          this] at hf
        exact Option.some.inj hf
      subst hff'
      refine ⟨hf', hpf', fun g hg hpg => ?_⟩
      have := h2 g hg hpg
      rw [he] at this
      exact leLexP_scoreOf_elim ceiling hceil f' g hpg this
  · intro hnone g hg
    cases hpg : passesFilter ceiling g with
    | false => rfl
    | true =>
      exfalso
      rcases h3 with h3 | ⟨f', hf', hpf', he⟩
      · have := h2 g hg hpg
        rw [h3] at this
        unfold leLexP scoreOf at this
        have h0 : (0 : Int) ≤ (heightVal g : Int) := Int.natCast_nonneg _
        simp only at this
        omega
      · rw [show choose_best_under_limit_non_reencode ceiling formats =
            (formats.foldl (chooseStep ceiling) (none, (-1, -1))).1 from rfl,
          he] at hnone
        exact absurd hnone (by simp)

/-- Witness for C1: Scenario B, the 720p 45 MB candidate wins under the
50 MiB ceiling, beating the 144p candidate on resolution. -/
theorem auto_selection_best_witness :
    choose_best_under_limit_non_reencode defaultCeiling demoFormats = some demo720 ∧
    (heightVal demo144 < heightVal demo720 ∨
      (heightVal demo144 = heightVal demo720 ∧ sizeLE demo720 demo144 = true)) := by
  have h := (auto_selection_best defaultCeiling (by decide) demoFormats).1 demo720
    (by decide)
  exact ⟨by decide, h.2.2 demo144 (by decide) (by decide)⟩

theorem mem_insertAssoc {x y : Nat × Fmt} {l : List (Nat × Fmt)} :
    y ∈ insertAssoc x l ↔ y = x ∨ y ∈ l := by
  induction l with
  | nil => simp [insertAssoc]
  | cons z zs ih =>
    unfold insertAssoc
    by_cases h : z.1 < x.1
    · rw [if_pos h]
      simp only [List.mem_cons, ih]
      tauto
    · rw [if_neg h]
      simp only [List.mem_cons]

theorem mem_sortAssoc {y : Nat × Fmt} {l : List (Nat × Fmt)} :
    y ∈ sortAssoc l ↔ y ∈ l := by
  induction l with
  | nil => simp [sortAssoc]
  | cons z zs ih =>
    unfold sortAssoc
    rw [mem_insertAssoc, ih, List.mem_cons]

theorem insertAssoc_pairwise {x : Nat × Fmt} {l : List (Nat × Fmt)}
    (hl : l.Pairwise (fun a b => a.1 < b.1)) (hx : ∀ y ∈ l, y.1 ≠ x.1) :
    (insertAssoc x l).Pairwise (fun a b => a.1 < b.1) := by
  induction l with
  | nil => simp [insertAssoc]
  | cons z zs ih =>
    rw [List.pairwise_cons] at hl
    unfold insertAssoc
    by_cases hzx : z.1 < x.1
    · rw [if_pos hzx, List.pairwise_cons]
      constructor
      · intro y hy
        rcases mem_insertAssoc.1 hy with rfl | hy'
        · exact hzx
        · exact hl.1 y hy'
      · exact ih hl.2 fun y hy => hx y (List.mem_cons_of_mem _ hy)
    · rw [if_neg hzx, List.pairwise_cons]
      have hxz : x.1 < z.1 :=
        lt_of_le_of_ne (le_of_not_lt hzx) (hx z (List.mem_cons_self _ _)).symm
      constructor
      · intro y hy
        rcases List.mem_cons.1 hy with rfl | hy'
        · exact hxz
        · exact lt_trans hxz (hl.1 y hy')
      · exact List.pairwise_cons.2 hl

theorem sortAssoc_pairwise {l : List (Nat × Fmt)}
    (hnd : (l.map Prod.fst).Nodup) :
    (sortAssoc l).Pairwise (fun a b => a.1 < b.1) := by
  induction l with
  | nil => simp [sortAssoc]
  | cons x xs ih =>
    simp only [List.map_cons, List.nodup_cons] at hnd
    unfold sortAssoc
    apply insertAssoc_pairwise (ih hnd.2)
    intro y hy hyx
    apply hnd.1
    rw [← hyx]
    exact List.mem_map.2 ⟨y, mem_sortAssoc.1 hy, rfl⟩

/-- Master characterization of `build_youtube_choice_list`, from which the
claims about manual-mode filtering follow: every emitted format survives the
filter and has minimal size key (`fsOrBig` of its size) within its positive
resolution class, every surviving format of positive resolution class is
represented, and the emitted list is strictly increasing in resolution
class. -/
theorem build_spec (ceiling : Nat) (formats : List Fmt) :
    (∀ f ∈ build_youtube_choice_list ceiling formats,
      f ∈ formats ∧ passesFilter ceiling f = true ∧ heightVal f ≠ 0 ∧
      ∀ g ∈ formats, passesFilter ceiling g = true → heightVal g = heightVal f →
        fsOrBig (format_filesize f) ≤ fsOrBig (format_filesize g)) ∧
    (∀ g ∈ formats, passesFilter ceiling g = true → heightVal g ≠ 0 →
      ∃ f ∈ build_youtube_choice_list ceiling formats,
        heightVal f = heightVal g) ∧
    (build_youtube_choice_list ceiling formats).Pairwise
      (fun a b => heightVal a < heightVal b) := by
  obtain ⟨b1, b2, b3, b4, b5, b6, b7⟩ :=
    buildFold_spec (sortCands (mkCandidates ceiling formats)) [] (by simp) (by simp)
  have hentry : ∀ p ∈ buildByHeight (sortCands (mkCandidates ceiling formats)),
      p.2 ∈ formats ∧ passesFilter ceiling p.2 = true ∧ p.1 = heightVal p.2 := by
    intro p hp
    rcases b2 p hp with h | ⟨c, hc, _, he1, he2⟩
    · simp at h
    · obtain ⟨hcf, hcp, hch, _⟩ := mem_mkCandidates (mem_sortCands.1 hc)
      rw [← he2] at hcf hcp
      refine ⟨hcf, hcp, ?_⟩
      rw [he1, hch, he2]
  have hmem : ∀ f, f ∈ build_youtube_choice_list ceiling formats ↔
      ∃ p ∈ buildByHeight (sortCands (mkCandidates ceiling formats)), p.2 = f := by
    intro f
    unfold build_youtube_choice_list
    rw [List.mem_map]
    constructor
    · rintro ⟨p, hp, he⟩
      exact ⟨p, mem_sortAssoc.1 hp, he⟩
    · rintro ⟨p, hp, he⟩
      exact ⟨p, mem_sortAssoc.2 hp, he⟩
  refine ⟨?_, ?_, ?_⟩
  · intro f hf
    obtain ⟨p, hp, rfl⟩ := (hmem f).1 hf
    obtain ⟨h1, h2, h3⟩ := hentry p hp
    refine ⟨h1, h2, by rw [← h3]; exact b7 p hp, ?_⟩
    intro g hg hpg hgf
    have hcg := mkCandidates_mem hg hpg
    have := b5 p hp (heightVal g, fsOrBig (format_filesize g), g)
      (mem_sortCands.2 hcg) (by rw [hgf, ← h3])
    exact this
  · intro g hg hpg hg0
    have hcg := mkCandidates_mem hg hpg
    have hkey := b4 (heightVal g, fsOrBig (format_filesize g), g)
      (mem_sortCands.2 hcg) hg0
    rcases List.mem_map.1 hkey with ⟨p, hp, he⟩
    obtain ⟨_, _, h3⟩ := hentry p hp
    refine ⟨p.2, (hmem p.2).2 ⟨p, hp, rfl⟩, ?_⟩
    rw [← h3, he]
  · unfold build_youtube_choice_list
    rw [List.pairwise_map]
    have hpw := sortAssoc_pairwise b1
    refine hpw.imp_of_mem ?_
    intro p q hp hq hlt
    obtain ⟨_, _, h3p⟩ := hentry p (mem_sortAssoc.1 hp)
    obtain ⟨_, _, h3q⟩ := hentry q (mem_sortAssoc.1 hq)
    rw [← h3p, ← h3q]
    exact hlt

/-- Provenance of a successful automatic selection: the returned format is
one of the inputs and survives the filter. -/
theorem choose_mem_passes (ceiling : Nat) (formats : List Fmt) (f : Fmt)
    (h : choose_best_under_limit_non_reencode ceiling formats = some f) :
    f ∈ formats ∧ passesFilter ceiling f = true := by
  obtain ⟨_, _, h3⟩ := choose_fold ceiling formats (none, (-1, -1))
  rcases h3 with h3 | ⟨f', hf', hpf', he⟩
  · unfold choose_best_under_limit_non_reencode at h
    rw [h3] at h
    exact absurd h (by simp)
  · unfold choose_best_under_limit_non_reencode at h
    rw [he] at h
    have hsf : some f' = some f := h
    obtain rfl := Option.some.inj hsf
    exact ⟨hf', hpf'⟩

/-! ## Claim about surfaced candidates (C2) -/

/-- C2: every candidate emitted by manual-mode filtering or returned by
automatic-mode selection has the mp4 container, lacks neither track (no
codec field holds the explicit marker), and its size is either unknown or
at most the ceiling. -/
theorem surfaced_candidates_safe (ceiling : Nat) (formats : List Fmt) (f : Fmt)
    (h : f ∈ build_youtube_choice_list ceiling formats ∨
      choose_best_under_limit_non_reencode ceiling formats = some f) :
    f.ext = some "mp4" ∧ f.vcodec ≠ some "none" ∧ f.acodec ≠ some "none" ∧
    ∀ s, format_filesize f = some s → s ≤ ceiling := by
  have hp : passesFilter ceiling f = true := by
    rcases h with h | h
    · exact ((build_spec ceiling formats).1 f h).2.1
    · exact (choose_mem_passes ceiling formats f h).2
  exact (passesFilter_eq_true_iff ceiling f).1 hp

/-- Witness for C2: the 144p candidate of Scenario A is in the manual list
and satisfies the invariant under the 50 MiB ceiling. -/
theorem surfaced_candidates_safe_witness :
    demo144 ∈ build_youtube_choice_list defaultCeiling demoFormats ∧
    (demo144.ext = some "mp4" ∧ demo144.vcodec ≠ some "none" ∧
      demo144.acodec ≠ some "none" ∧
      ∀ s, format_filesize demo144 = some s → s ≤ defaultCeiling) :=
  ⟨by decide,
    surfaced_candidates_safe defaultCeiling demoFormats demo144 (Or.inl (by decide))⟩

/-! ## Claims about manual-mode filtering (C3, C4) -/

/-- C3, counterexample to the claim as stated: two surviving 480p
candidates, one of recorded size 0 bytes and one of 18 MB. The smallest
known size in the class is 0, yet the emitted list keeps the 18 MB
candidate and drops the 0-byte one, because the Python expression
`fs or 10**18` sends a size of 0 to the unknown-size sentinel. -/
theorem manual_min_size_cex :
    passesFilter defaultCeiling cexZero = true ∧
    passesFilter defaultCeiling cex18 = true ∧
    heightVal cexZero = heightVal cex18 ∧
    format_filesize cexZero = some 0 ∧
    format_filesize cex18 = some 18874368 ∧
    build_youtube_choice_list defaultCeiling [cexZero, cex18] = [cex18] ∧
    cexZero ∉ build_youtube_choice_list defaultCeiling [cexZero, cex18] := by
  decide

/-- C3 as amended: within each resolution class, manual-mode filtering
keeps exactly one surviving candidate, one whose size key is minimal among
the surviving candidates of that class, where the size key is the known
size except that an unknown size or a recorded size of 0 counts as the
sentinel `10**18`. In particular a candidate with unknown size never
displaces one with a known nonzero size below the sentinel in the same
class. -/
theorem manual_min_size_per_class (ceiling : Nat) (formats : List Fmt) :
    (∀ f ∈ build_youtube_choice_list ceiling formats,
      passesFilter ceiling f = true ∧
      ∀ g ∈ formats, passesFilter ceiling g = true →
        heightVal g = heightVal f →
        fsOrBig (format_filesize f) ≤ fsOrBig (format_filesize g)) ∧
    (∀ g ∈ formats, passesFilter ceiling g = true → heightVal g ≠ 0 →
      ∃ f ∈ build_youtube_choice_list ceiling formats,
        heightVal f = heightVal g) := by
  obtain ⟨h1, h2, _⟩ := build_spec ceiling formats
  exact ⟨fun f hf => ⟨(h1 f hf).2.1, (h1 f hf).2.2.2⟩, h2⟩

/-- Witness for the amended C3: Scenario C, 480p candidates of 20 MB and
18 MB; the 18 MB one is kept and its size key is minimal in the class. -/
theorem manual_min_size_per_class_witness :
    scen480b ∈ build_youtube_choice_list defaultCeiling [scen480a, scen480b] ∧
    fsOrBig (format_filesize scen480b) ≤ fsOrBig (format_filesize scen480a) ∧
    (∃ f ∈ build_youtube_choice_list defaultCeiling [scen480a, scen480b],
      heightVal f = heightVal scen480a) := by
  have h := manual_min_size_per_class defaultCeiling [scen480a, scen480b]
  refine ⟨by decide, ?_, ?_⟩
  · exact (h.1 scen480b (by decide)).2 scen480a (by decide) (by decide) (by decide)
  · exact h.2 scen480a (by decide) (by decide) (by decide)

/-- C4: the manual-mode list is strictly increasing in resolution class
(hence no two entries share a class) and contains no entry of zero/unknown
resolution class. -/
theorem manual_list_strictly_increasing (ceiling : Nat) (formats : List Fmt) :
    (build_youtube_choice_list ceiling formats).Pairwise
      (fun a b => heightVal a < heightVal b) ∧
    ∀ f ∈ build_youtube_choice_list ceiling formats, heightVal f ≠ 0 := by
  obtain ⟨h1, _, h3⟩ := build_spec ceiling formats
  exact ⟨h3, fun f hf => (h1 f hf).2.2.1⟩

/-- Witness for C4: Scenario A emits the 144p and 720p entries, in strictly
increasing order and with nonzero classes. -/
theorem manual_list_strictly_increasing_witness :
    (build_youtube_choice_list defaultCeiling demoFormats).Pairwise
      (fun a b => heightVal a < heightVal b) ∧
    heightVal demo144 ≠ 0 :=
  ⟨(manual_list_strictly_increasing defaultCeiling demoFormats).1,
    (manual_list_strictly_increasing defaultCeiling demoFormats).2 demo144 (by decide)⟩

/-! ## Claim about absent codec fields (C10) -/

/-- C10: for a candidate that passes the container and size conditions, the
filter shared by manual-mode filtering and automatic-mode selection rejects
it exactly when a codec field holds the explicit marker string `"none"`; an
absent video-codec or audio-codec field never causes rejection, so such a
candidate is treated as having the track. -/
theorem absent_codec_keeps_track (ceiling : Nat) (f : Fmt)
    (hext : f.ext = some "mp4") (hsize : sizeOK ceiling f = true) :
    (passesFilter ceiling f = false ↔
      (f.vcodec = some "none" ∨ f.acodec = some "none")) ∧
    (f.vcodec = none → f.acodec = none → passesFilter ceiling f = true) := by
  constructor
  · rw [← Bool.not_eq_true, passesFilter_eq_true_iff]
    have hs : ∀ s, format_filesize f = some s → s ≤ ceiling := by
      intro s hfs
      unfold sizeOK at hsize
      rw [hfs] at hsize
      exact of_decide_eq_true hsize
    constructor
    · intro h
      by_cases hv : f.vcodec = some "none"
      · exact Or.inl hv
      · by_cases ha : f.acodec = some "none"
        · exact Or.inr ha
        · exact absurd ⟨hext, hv, ha, hs⟩ h
    · rintro (h | h) hc
      · exact hc.2.1 h
      · exact hc.2.2.1 h
  · intro hv ha
    rw [passesFilter_eq_true_iff]
    refine ⟨hext, by rw [hv]; exact fun hc => Option.noConfusion hc,
      by rw [ha]; exact fun hc => Option.noConfusion hc, ?_⟩
    intro s hfs
    unfold sizeOK at hsize
    rw [hfs] at hsize
    exact of_decide_eq_true hsize

/-- Witness for C10: a candidate whose codec fields are absent passes the
filter. -/
theorem absent_codec_keeps_track_witness :
    absentCodecs.ext = some "mp4" ∧ sizeOK defaultCeiling absentCodecs = true ∧
    passesFilter defaultCeiling absentCodecs = true :=
  ⟨rfl, by decide,
    (absent_codec_keeps_track defaultCeiling absentCodecs rfl (by decide)).2 rfl rfl⟩

/-! ## Claims about the session store (C7, C8) -/

/-- C7: one store entry per `(chat, user)` key. Storing a pending selection
with `dictPut` (the `PENDING[(chat_id, user_id)] = PendingChoice(...)` of
line 275) overwrites any existing entry for the key and leaves other keys
alone; both `dictPut` and `dictPop` preserve distinctness of keys, so every
reachable store holds at most one entry per key. -/
theorem pending_one_entry_per_key (m : Store) (k : Key) (v : PendingChoice)
    (hnd : (m.map Prod.fst).Nodup) :
    dictGet (dictPut m k v) k = some v ∧
    (∀ k', k' ≠ k → dictGet (dictPut m k v) k' = dictGet m k') ∧
    ((dictPut m k v).map Prod.fst).Nodup ∧
    (∀ p ∈ dictPut m k v, ∀ q ∈ dictPut m k v, p.1 = q.1 → p = q) ∧
    ((dictPop m k).map Prod.fst).Nodup := by
  refine ⟨dictGet_put_self m k v, fun k' h => dictGet_put_other m k k' v h,
    dictPut_nodup k v hnd, fun p hp q hq hpq => ?_, dictPop_nodup k hnd⟩
  exact eq_of_nodup_keys (dictPut_nodup k v hnd) hp hq hpq

/-- Witness for C7 at a concrete store. -/
theorem pending_one_entry_per_key_witness :
    dictGet (dictPut [(((1 : Int), (2 : Int)), demoPending)] (1, 2) demoPending2)
        (1, 2) = some demoPending2 ∧
    ((dictPut [(((1 : Int), (2 : Int)), demoPending)] (1, 2) demoPending2).map
        Prod.fst).Nodup := by
  have h := pending_one_entry_per_key [(((1 : Int), (2 : Int)), demoPending)]
    (1, 2) demoPending2 (by decide)
  exact ⟨h.1, h.2.2.1⟩

/-- C8: the read-and-remove `take` (the `PENDING.get` then `PENDING.pop` of
the selection path) returns a stored selection once: the first `take`
yields the selection and removes the entry, a second `take` on the same key
yields `none` and leaves the store as it was. -/
theorem take_read_and_remove (m : Store) (k : Key) (v : PendingChoice)
    (hnd : (m.map Prod.fst).Nodup) (h : dictGet m k = some v) :
    (take m k).1 = some v ∧
    take ((take m k).2) k = (none, (take m k).2) := by
  have hpop : dictGet (dictPop m k) k = none := dictGet_pop_self k hnd
  refine ⟨h, ?_⟩
  show (dictGet (dictPop m k) k, dictPop (dictPop m k) k) = (none, dictPop m k)
  rw [hpop, dictPop_of_get_none hpop]

/-- Witness for C8 at a concrete store. -/
theorem take_read_and_remove_witness :
    (take [(((1 : Int), (2 : Int)), demoPending)] (1, 2)).1 = some demoPending ∧
    take ((take [(((1 : Int), (2 : Int)), demoPending)] (1, 2)).2) (1, 2) =
      (none, (take [(((1 : Int), (2 : Int)), demoPending)] (1, 2)).2) :=
  take_read_and_remove [(((1 : Int), (2 : Int)), demoPending)] (1, 2) demoPending
    (by decide) (by decide)

/-! ## Claims about the callback handler (C6, C9) -/

theorem yt_data_ne_cancel (t : String) : ("YT|" ++ t) ≠ "CANCEL" := by
  intro he
  have hd := congrArg String.data he
  rw [show ("YT|" ++ t).data = 'Y' :: 'T' :: '|' :: t.data from rfl] at hd
  injection hd with h1 _
  exact absurd h1 (by decide)

/-- Reduction of `on_callback` on a selection event `"YT|" ++ token`. -/
theorem on_callback_yt (store : Store) (chat user : Int) (t : String) :
    on_callback store chat user ("YT|" ++ t) =
      match dictGet store (chat, user) with
      | none => (store, CbReply.sessionNotFound)
      | some pending =>
        match dictGet pending.formats t with
        | none => (store, CbReply.formatNotFound)
        | some _ => (dictPop store (chat, user), CbReply.downloading) := by
  unfold on_callback
  rw [if_neg (yt_data_ne_cancel t)]
  rfl

/-- C6, counterexample to the claim as stated: a cancellation event on a key
with no stored PendingSelection is acknowledged with the cancelled reply of
line 308, not with the session-not-found reply. -/
theorem no_session_cancel_cex :
    on_callback [] 1 2 "CANCEL" = ([], CbReply.cancelled) ∧
    CbReply.cancelled ≠ CbReply.sessionNotFound :=
  ⟨rfl, by decide⟩

/-- C6 as amended: a selection event whose key has no stored
PendingSelection yields the session-not-found reply and leaves the store
unchanged; a cancellation event on such a key also leaves the store
unchanged (its pop removes nothing) but is acknowledged with the cancelled
reply. Since neither event changes the store, both outcomes are idempotent:
the same event can be reported repeatedly with the same result and no
crash. -/
theorem no_session_event_handling (store : Store) (chat user : Int) (t : String)
    (h : dictGet store (chat, user) = none) :
    on_callback store chat user ("YT|" ++ t) = (store, CbReply.sessionNotFound) ∧
    on_callback store chat user "CANCEL" = (store, CbReply.cancelled) := by
  constructor
  · rw [on_callback_yt, h]
  · show (dictPop store (chat, user), CbReply.cancelled) = _
    rw [dictPop_of_get_none h]

/-- Witness for the amended C6: the empty store after a consumed selection. -/
theorem no_session_event_handling_witness :
    on_callback [] 1 2 ("YT|" ++ "f0") = ([], CbReply.sessionNotFound) ∧
    on_callback [] 1 2 "CANCEL" = ([], CbReply.cancelled) :=
  no_session_event_handling [] 1 2 "f0" rfl

/-- C9: a selection event carrying a token that is not in the stored
PendingSelection token map leaves the stored entry untouched (the store is
returned unchanged, nothing is consumed) and replies with the
format-not-found reply of line 319, which is distinct from the
session-not-found reply of line 315. -/
theorem stale_token_keeps_session (store : Store) (chat user : Int)
    (p : PendingChoice) (t : String)
    (h1 : dictGet store (chat, user) = some p)
    (h2 : dictGet p.formats t = none) :
    on_callback store chat user ("YT|" ++ t) = (store, CbReply.formatNotFound) ∧
    CbReply.formatNotFound ≠ CbReply.sessionNotFound := by
  refine ⟨?_, by decide⟩
  rw [on_callback_yt, h1]
  simp only [h2]

/-- Witness for C9: a stored session queried with an unknown token. -/
theorem stale_token_keeps_session_witness :
    on_callback [(((1 : Int), (2 : Int)), demoPending)] 1 2 ("YT|" ++ "f9") =
      ([(((1 : Int), (2 : Int)), demoPending)], CbReply.formatNotFound) ∧
    CbReply.formatNotFound ≠ CbReply.sessionNotFound :=
  stale_token_keeps_session [(((1 : Int), (2 : Int)), demoPending)] 1 2
    demoPending "f9" (by decide) (by decide)

/-! ## Claim about the delivery pipeline (C5) -/

/-- C5: when the downloaded file has an actual on-disk size above the
ceiling, the pipeline emits the too-large notice and performs no
`send_video` transport upload, whatever size estimate the earlier filtering
used (the estimate does not appear in this check at all). -/
theorem size_recheck_blocks_upload (ceiling size : Nat) (h : ceiling < size) :
    send_downloaded_video ceiling (Except.ok size) =
      [BotAction.uploadAction, BotAction.message (MsgKind.tooLarge size)] ∧
    ∀ s, BotAction.video s ∉ send_downloaded_video ceiling (Except.ok size) := by
  have e : send_downloaded_video ceiling (Except.ok size) =
      [BotAction.uploadAction, BotAction.message (MsgKind.tooLarge size)] := by
    show BotAction.uploadAction ::
        (if size > ceiling then [BotAction.message (MsgKind.tooLarge size)]
         else [BotAction.video size]) = _
    rw [if_pos (show size > ceiling from h)]
  refine ⟨e, fun s hs => ?_⟩
  rw [e] at hs
  simp at hs

/-- Witness for C5: Scenario F, a 52 MB file against the 50 MB ceiling. -/
theorem size_recheck_blocks_upload_witness :
    send_downloaded_video defaultCeiling (Except.ok 54525952) =
      [BotAction.uploadAction, BotAction.message (MsgKind.tooLarge 54525952)] ∧
    ∀ s, BotAction.video s ∉ send_downloaded_video defaultCeiling (Except.ok 54525952) :=
  size_recheck_blocks_upload defaultCeiling 54525952 (by decide)

end TgBot
